import Mathlib

/-!
Shallow embedding of the storage/search core of `model.py` (the "von" catalog).

The repository's model layer maintains two persisted stores over problem
metadata entries: an identifier-keyed Index (a Python dict, insertion-ordered,
modelled as an association list) and a positionally numbered Cache (a Python
list). External collaborators that live outside the model layer are passed as
parameters: the fixed priority tag list `SORT_TAGS` (from `rc.py`), the
identifier normalizer `inferPUID` (from `puid.py`), and the optional OTIS
usage feed (a JSON file of used sources). Machine-level details that matter
are kept: Python list indexing accepts negative keys (wrap-around), Python
`dict` preserves insertion order and replaces values in place, and iterating
`.values()` of the list-backed `MutableMapping` cache indexes the underlying
list with an entry object, which raises `TypeError`; fallible paths return
`Except String`.
-/

namespace Von

/-- Storable projection of a problem, mirroring class `PickleMappingEntry`
(and the shared `GenericItem` fields). `i` is the 0-based Cache position. -/
structure PickleMappingEntry where
  source : String := ""
  desc : String := ""
  author : Option String := none
  url : Option String := none
  hardness : Option Int := none
  tags : List String := []
  path : String := ""
  i : Option Nat := none
  deriving DecidableEq, Repr

/-- Full in-memory form of a source file, mirroring class `Problem`
(`GenericItem` fields plus the body sections). -/
structure Problem where
  source : String := ""
  desc : String := ""
  author : Option String := none
  url : Option String := none
  hardness : Option Int := none
  tags : List String := []
  path : String := ""
  i : Option Nat := none
  bodies : List String := []
  deriving DecidableEq, Repr

/-- Projection `Problem.entry`: the storable entry for the pickle stores;
copies every metadata field (including the cache position), drops `bodies`. -/
def Problem.entry (p : Problem) : PickleMappingEntry :=
  { source := p.source, desc := p.desc, author := p.author, url := p.url,
    hardness := p.hardness, tags := p.tags, path := p.path, i := p.i }

/-- Python `str.lower` (ASCII model). -/
def pyLower (s : String) : String := ⟨s.data.map Char.toLower⟩

/-- Python `str.upper` (ASCII model). -/
def pyUpper (s : String) : String := ⟨s.data.map Char.toUpper⟩

/-- Python `needle.startswith(hay)` on character lists: `leadsList n h` is
true when `n` is a leading segment of `h`. -/
def leadsList : List Char → List Char → Bool
  | [], _ => true
  | _ :: _, [] => false
  | a :: as, b :: bs => a = b && leadsList as bs

/-- Python substring test `n in h` on character lists: `n` occurs
contiguously inside `h`. -/
def containsSub (n : List Char) : List Char → Bool
  | [] => n.isEmpty
  | c :: rest => leadsList n (c :: rest) || containsSub n rest

/-- Python `pre in s` for strings. -/
def strIn (n s : String) : Bool := containsSub n.data s.data

/-- Python `s.startswith(pre)` for strings. -/
def pyStartsWith (s pre : String) : Bool := leadsList pre.data s.data

/-- The `GenericItem.sortvalue` scan over `SORT_TAGS` with its running
index (`enumerate` in the source); returns `-1` when no tag matches. -/
def sortvalueGo (entryTags : List String) (k : Int) : List String → Int
  | [] => -1
  | d :: rest => if d ∈ entryTags then k else sortvalueGo entryTags (k + 1) rest

/-- Property `GenericItem.sortvalue`: index of the first priority tag (from
`SORT_TAGS`, passed as `st`) present among the entry's tags, else `-1`. -/
def sortvalue (st : List String) (e : PickleMappingEntry) : Int :=
  sortvalueGo e.tags 0 st

/-- Property `GenericItem.sortkey`: `(sortvalue, hardness, source)` with the
sentinel `-1` in place of a non-integer hardness. -/
def sortkey (st : List String) (e : PickleMappingEntry) : Int × Int × String :=
  match e.hardness with
  | some h => (sortvalue st e, h, e.source)
  | none => (sortvalue st e, -1, e.source)

/-- Python `str <` comparison: lexicographic by character code point. -/
def strLtB : List Char → List Char → Bool
  | _, [] => false
  | [], _ :: _ => true
  | a :: as, b :: bs =>
    decide (a.toNat < b.toNat) || (decide (a.toNat = b.toNat) && strLtB as bs)

/-- Python tuple `<` on `(int, int, str)` triples (lexicographic, first
unequal component decides). -/
def keyLtB (k1 k2 : Int × Int × String) : Bool :=
  decide (k1.1 < k2.1) ||
    (decide (k1.1 = k2.1) &&
      (decide (k1.2.1 < k2.2.1) ||
        (decide (k1.2.1 = k2.2.1) && strLtB k1.2.2.data k2.2.2.data)))

/-- Method `GenericItem.__lt__`: compare the sort keys. -/
def itemLtB (st : List String) (a b : PickleMappingEntry) : Bool :=
  keyLtB (sortkey st a) (sortkey st b)

/-- Method `GenericItem.__eq__`: sort keys are equal. -/
def itemEqB (st : List String) (a b : PickleMappingEntry) : Bool :=
  decide (sortkey st a = sortkey st b)

/-- Method `PickleMappingEntry.hasTag`: case-insensitive tag membership. -/
def hasTag (e : PickleMappingEntry) (tag : String) : Bool :=
  (e.tags.map pyLower).contains (pyLower tag)

/-- Method `PickleMappingEntry.hasTerm`'s search blob:
`source + " " + desc`, plus `" " + author` when an author is present. -/
def termBlob (e : PickleMappingEntry) : String :=
  match e.author with
  | some a => e.source ++ " " ++ e.desc ++ " " ++ a
  | none => e.source ++ " " ++ e.desc

/-- Method `PickleMappingEntry.hasTerm` (with the external `inferPUID`
collaborator passed in as `puid`): case-insensitive substring of the blob,
or verbatim tag membership, or uppercased term occurring inside the PUID. -/
def hasTerm (puid : String → String) (e : PickleMappingEntry) (term : String) : Bool :=
  strIn (pyLower term) (pyLower (termBlob e)) ||
    e.tags.contains term ||
    strIn (pyUpper term) (puid e.source)

/-- Method `PickleMappingEntry.hasAuthor`: the name matches one
space-separated token of the lowercased, stripped author. -/
def hasAuthor (e : PickleMappingEntry) (name : String) : Bool :=
  match e.author with
  | none => false
  | some a => (((pyLower a).trim).splitOn " ").contains (pyLower name)

/-- Method `PickleMappingEntry.hasSource`: case-insensitive substring of the
entry's source. -/
def hasSource (e : PickleMappingEntry) (s : String) : Bool :=
  strIn (pyLower s) (pyLower e.source)

/-- The persisted Index: a Python `dict[str, PickleMappingEntry]`, which is
insertion-ordered with unique keys, modelled as an association list. -/
abbrev Index : Type := List (String × PickleMappingEntry)

/-- Python `key in d` for the dict-backed Index. -/
def dictHasKey (d : Index) (k : String) : Bool :=
  (List.map Prod.fst d).contains k

/-- Python `d[k] = v` on a dict: replace in place when the key is present
(keeping its insertion position), otherwise append at the end. -/
def dictInsert : Index → String → PickleMappingEntry → Index
  | [], k, v => [(k, v)]
  | (k0, v0) :: rest, k, v =>
    if k0 = k then (k, v) :: rest else (k0, v0) :: dictInsert rest k v

/-- Python `d[k]` lookup on a dict (`none` models `KeyError`). -/
def dictGet : Index → String → Option PickleMappingEntry
  | [], _ => none
  | (k0, v0) :: rest, k => if k0 = k then some v0 else dictGet rest k

/-- Python `del d[k]` on a dict, minus the `KeyError` on a missing key
(callers below check for membership first and error out themselves). -/
def dictDelete : Index → String → Index
  | [], _ => []
  | (k0, v0) :: rest, k => if k0 = k then rest else (k0, v0) :: dictDelete rest k

/-- The loop inside `pickleListVonCache.set`: `store[i].i = i` for every
index, with `k` the running index value. -/
def renumberFrom (k : Nat) : List PickleMappingEntry → List PickleMappingEntry
  | [] => []
  | e :: rest => { e with i := some k } :: renumberFrom (k + 1) rest

/-- Method `pickleListVonCache.set`: store a new sequence, rewriting every
entry's `i` field to its 0-based position. -/
def cacheSet (store : List PickleMappingEntry) : List PickleMappingEntry :=
  renumberFrom 0 store

/-- Function `setCache`. -/
def setCache (entries : List PickleMappingEntry) : List PickleMappingEntry :=
  cacheSet entries

/-- Function `augmentCache`: `cache.set(cache.store + list(entries))`. -/
def augmentCache (cache entries : List PickleMappingEntry) : List PickleMappingEntry :=
  cacheSet (cache ++ entries)

/-- Function `clearCache`: `cache.set([])`. -/
def clearCache : List PickleMappingEntry :=
  cacheSet []

/-- Python list index resolution: negative keys count from the end. -/
def pyIndex (key : Int) (L : Nat) : Int :=
  if key < 0 then key + L else key

/-- Python list subscription `store[key]` as performed by
`pickleObj.__getitem__`: negative keys wrap around from the end; an index
out of `[-len, len)` raises `IndexError` (re-raised as "not a valid key"). -/
def listGetItem (store : List PickleMappingEntry) (key : Int) :
    Except String PickleMappingEntry :=
  if 0 ≤ pyIndex key store.length ∧ pyIndex key store.length < (store.length : Int) then
    match store.get? (pyIndex key store.length).toNat with
    | some e => Except.ok e
    | none => Except.error "unreachable"
  else Except.error (toString key ++ " not a valid key")

/-- Function `getEntryByCacheNum`: `cache[n - 1]` with external 1-based
numbering. -/
def getEntryByCacheNum (cache : List PickleMappingEntry) (n : Int) :
    Except String PickleMappingEntry :=
  listGetItem cache (n - 1)

/-- Iterating `cache.values()` on the list-backed `MutableMapping`:
`Mapping.values` yields `self[key]` for each `key` produced by `__iter__`,
but `__iter__` yields the list's elements themselves, so a non-empty store
immediately indexes a Python list with a `PickleMappingEntry` and raises
`TypeError` (which `__getitem__` does not catch). -/
def cacheValues (store : List PickleMappingEntry) :
    Except String (List PickleMappingEntry) :=
  match store with
  | [] => Except.ok []
  | _ :: _ => Except.error "TypeError: list indices must be integers or slices, not PickleMappingEntry"

/-- Function `addEntryToIndex`: `index[entry.source] = entry`. -/
def addEntryToIndex (index : Index) (entry : PickleMappingEntry) : Index :=
  dictInsert index entry.source entry

/-- Function `addProblemToIndex`: `index[p.source] = p.entry`. -/
def addProblemToIndex (index : Index) (p : Problem) : Index :=
  dictInsert index p.source p.entry

/-- Function `setEntireIndex`: wholesale replacement. -/
def setEntireIndex (d : Index) : Index := d

/-- The scan-for-`old_entry.source` loop in `updateEntryByProblem` (a
`for`/`break` over `enumerate(cache)`): index of the first entry whose
source matches, if any. -/
def findSourceIdx (src : String) : List PickleMappingEntry → Option Nat
  | [] => none
  | e :: rest =>
    if e.source = src then some 0 else (findSourceIdx src rest).map (· + 1)

/-- The Index session of `updateEntryByProblem`: delete the old key when the
source changed (`KeyError` when it is absent), then store the new entry
under its own source. -/
def updateIndexStep (index : Index) (old_source : String)
    (new_entry : PickleMappingEntry) : Except String Index :=
  if old_source = new_entry.source then
    Except.ok (dictInsert index new_entry.source new_entry)
  else if dictHasKey index old_source then
    Except.ok (dictInsert (dictDelete index old_source) new_entry.source new_entry)
  else Except.error ("KeyError: " ++ old_source)

/-- The Cache session of `updateEntryByProblem`: replace the first entry
whose source is the old source in place (stamping the new entry's position
to the found index), or append the new entry via `set` (which renumbers)
when no cache entry matches. -/
def updateCache (old_source : String) (new_entry : PickleMappingEntry)
    (cache : List PickleMappingEntry) : List PickleMappingEntry :=
  match findSourceIdx old_source cache with
  | some j => cache.set j { new_entry with i := some j }
  | none => cacheSet (cache ++ [new_entry])

/-- Function `updateEntryByProblem`: stamp the new problem with the old
entry's cache position, run the Index session, then the Cache session.
Returns the persisted Index and Cache. -/
def updateEntryByProblem (index : Index) (cache : List PickleMappingEntry)
    (old_entry : PickleMappingEntry) (new_problem : Problem) :
    Except String (Index × List PickleMappingEntry) :=
  let new_entry : PickleMappingEntry :=
    Problem.entry { new_problem with i := old_entry.i }
  match updateIndexStep index old_entry.source new_entry with
  | Except.error e => Except.error e
  | Except.ok index1 =>
    Except.ok (index1, updateCache old_entry.source new_entry cache)

/-- Python `random.randrange(10**6, 10**7)` seeded by a supplied natural:
always lands in `[10^6, 10^7)`. -/
def randrange7 (r : Nat) : Nat := 10 ^ 6 + r % (9 * 10 ^ 6)

/-- The placeholder identifier `rebuildIndex` substitutes on a collision. -/
def fakeSourceName (r : Nat) : String :=
  "DUPLICATE " ++ toString (randrange7 r)

/-- One iteration of the `rebuildIndex` loop over the discovered problems:
on an identifier collision, draw a random placeholder (consuming the head of
the supplied randomness stream), rename the problem, and count one report
(`view.error`); then insert the projected entry under its source. -/
def rebuildStep : Index × List Nat × Nat → Problem → Index × List Nat × Nat
  | (d, rng, reports), p =>
    if dictHasKey d p.source then
      (dictInsert d (fakeSourceName (rng.headD 0))
          (Problem.entry { p with source := fakeSourceName (rng.headD 0) }),
        rng.tail, reports + 1)
    else
      (dictInsert d p.source p.entry, rng, reports)

/-- Function `rebuildIndex` over an explicit list of discovered problems
(the `getAllProblems` collaborator's output) and an explicit randomness
stream: returns the rebuilt Index and the number of collision reports. -/
def rebuildIndex (docs : List Problem) (rng : List Nat) : Index × Nat :=
  let z := docs.foldl rebuildStep (([] : Index), rng, 0)
  (z.1, z.2.2)

/-- Python stable `list.sort` building block: insert `a` before the first
element `b` it compares `le` to. -/
def ordInsert (le : PickleMappingEntry → PickleMappingEntry → Bool)
    (a : PickleMappingEntry) : List PickleMappingEntry → List PickleMappingEntry
  | [] => [a]
  | b :: l => if le a b then a :: b :: l else b :: ordInsert le a l

/-- Python stable `list.sort` (modelled as stable insertion sort; Python's
ascending comparisons use `__lt__`, so `le a b := not (b < a)`). -/
def pySort (le : PickleMappingEntry → PickleMappingEntry → Bool) :
    List PickleMappingEntry → List PickleMappingEntry
  | [] => []
  | a :: l => ordInsert le a (pySort le l)

/-- The non-decreasing comparison `result.sort()` uses: not `__lt__` the
other way (a total preorder on sort keys). -/
def keyLeB (st : List String) (a b : PickleMappingEntry) : Bool :=
  ! itemLtB st b a

/-- The non-decreasing comparison `result.sort(key=lambda e: e.source)`
uses: sources compared as Python strings. -/
def srcLeB (a b : PickleMappingEntry) : Bool :=
  ! strLtB b.source.data a.source.data

/-- Query parameters of `runSearch` (all keyword arguments). -/
structure SearchQuery where
  terms : List String := []
  tags : List String := []
  sources : List String := []
  authors : List String := []
  path : String := ""
  refine : Bool := false
  alph_sort : Bool := false
  in_otis : Option Bool := none
  deriving Repr

/-- The `otis_used_sources` computed at the top of `runSearch`: present only
when `in_otis` was supplied and the external OTIS JSON (its list of values,
passed here as `evil`) is configured. -/
def otisUsedSources (q : SearchQuery) (evil : Option (List String)) :
    Option (List String) :=
  match q.in_otis, evil with
  | some _, some l => some l
  | _, _ => none

/-- The `_matches` closure of `runSearch`: the OTIS usage gate followed by
the conjunction of all supplied filters. -/
def searchMatches (puid : String → String)
    (evil : Option (List String)) (q : SearchQuery)
    (entry : PickleMappingEntry) : Bool :=
  let otisGate : Bool :=
    match otisUsedSources q evil with
    | none => true
    | some l =>
      let used : Bool := l.contains entry.source || hasTag entry "waltz"
      if used && q.in_otis = some false then false
      else if !used && q.in_otis = some true then false
      else true
  otisGate &&
    (q.tags.all (fun t => hasTag entry t) &&
      q.terms.all (fun t => hasTerm puid entry t) &&
      q.sources.all (fun s => hasSource entry s) &&
      q.authors.all (fun a => hasAuthor entry a) &&
      pyStartsWith entry.path q.path)

/-- The filter/sort/cache tail of `runSearch`, once the scanned pool is in
hand: filter by `_matches`, sort in place (alphabetically by source or by
the derived ordering key), and, when the result is non-empty, overwrite the
Cache with it via `setCache` (which also renumbers the very list returned).
Returns the returned result list together with the resulting Cache. -/
def runSearchCore (st : List String) (puid : String → String)
    (evil : Option (List String)) (q : SearchQuery)
    (pool cache : List PickleMappingEntry) :
    List PickleMappingEntry × List PickleMappingEntry :=
  let result := pool.filter (searchMatches puid evil q)
  let sorted := if q.alph_sort then pySort srcLeB result else pySort (keyLeB st) result
  if sorted.isEmpty then (sorted, cache)
  else (cacheSet sorted, cacheSet sorted)

/-- Function `runSearch`: select the store (`index.values()` in discovery
order, or the Cache via the `TypeError`-raising `cache.values()` when
`refine` is set), then filter, sort and cache per `runSearchCore`. -/
def runSearch (st : List String) (puid : String → String)
    (evil : Option (List String)) (index : Index)
    (cache : List PickleMappingEntry) (q : SearchQuery) :
    Except String (List PickleMappingEntry × List PickleMappingEntry) :=
  match (if q.refine then cacheValues cache else Except.ok (List.map Prod.snd index)) with
  | Except.error e => Except.error e
  | Except.ok pool => Except.ok (runSearchCore st puid evil q pool cache)

/-! Order facts about the Python comparisons. -/

theorem strLtB_nil_right (x : List Char) : strLtB x [] = false := by
  cases x <;> rfl

theorem strLtB_cons_iff (a b : Char) (as bs : List Char) :
    strLtB (a :: as) (b :: bs) = true ↔
      a.toNat < b.toNat ∨ (a.toNat = b.toNat ∧ strLtB as bs = true) := by
  simp [strLtB]

theorem strLtB_nil_cons (b : Char) (bs : List Char) :
    strLtB [] (b :: bs) = true := rfl

theorem eq_false_iff_not {b : Bool} {P : Prop} (h : b = true ↔ P) :
    b = false ↔ ¬ P := by
  constructor
  · intro hb hp
    rw [h.mpr hp] at hb
    exact Bool.noConfusion hb
  · intro hp
    cases hv : b
    · rfl
    · exact absurd (h.mp hv) hp

theorem strLtB_cons_false_iff (a b : Char) (as bs : List Char) :
    strLtB (a :: as) (b :: bs) = false ↔
      ¬ a.toNat < b.toNat ∧ (a.toNat = b.toNat → strLtB as bs = false) := by
  rw [eq_false_iff_not (strLtB_cons_iff a b as bs)]
  push_neg
  constructor
  · rintro ⟨hlt, hrec⟩
    exact ⟨hlt, fun he => Bool.eq_false_iff.mpr (hrec he)⟩
  · rintro ⟨hlt, hrec⟩
    exact ⟨hlt, fun he => Bool.eq_false_iff.mp (hrec he)⟩

theorem strLtB_asymm : ∀ x y, strLtB x y = true → strLtB y x = false := by
  intro x
  induction x with
  | nil => intro y _; exact strLtB_nil_right y
  | cons a as ih =>
    intro y h
    cases y with
    | nil => simp [strLtB_nil_right] at h
    | cons b bs =>
      rw [strLtB_cons_iff] at h
      rw [strLtB_cons_false_iff]
      rcases h with h | ⟨hEq, hRec⟩
      · exact ⟨by omega, fun he => absurd he (by omega)⟩
      · exact ⟨by omega, fun _ => ih bs hRec⟩

theorem strLtB_neg_trans :
    ∀ x y z, strLtB y x = false → strLtB z y = false → strLtB z x = false := by
  intro x
  induction x with
  | nil =>
    intro y z _ _
    exact strLtB_nil_right z
  | cons a as ih =>
    intro y z h1 h2
    cases y with
    | nil => simp [strLtB_nil_cons] at h1
    | cons b bs =>
      cases z with
      | nil => simp [strLtB_nil_cons] at h2
      | cons c cs =>
        rw [strLtB_cons_false_iff] at h1 h2 ⊢
        obtain ⟨hba, h1r⟩ := h1
        obtain ⟨hcb, h2r⟩ := h2
        refine ⟨by omega, fun hca => ?_⟩
        have hab : b.toNat = a.toNat := by omega
        have hbc : c.toNat = b.toNat := by omega
        exact ih bs cs (h1r hab) (h2r hbc)

theorem keyLtB_true_iff (k1 k2 : Int × Int × String) :
    keyLtB k1 k2 = true ↔
      k1.1 < k2.1 ∨ (k1.1 = k2.1 ∧
        (k1.2.1 < k2.2.1 ∨ (k1.2.1 = k2.2.1 ∧ strLtB k1.2.2.data k2.2.2.data = true))) := by
  simp [keyLtB]

theorem keyLtB_false_iff (k1 k2 : Int × Int × String) :
    keyLtB k1 k2 = false ↔
      ¬ k1.1 < k2.1 ∧ (k1.1 = k2.1 →
        ¬ k1.2.1 < k2.2.1 ∧ (k1.2.1 = k2.2.1 → strLtB k1.2.2.data k2.2.2.data = false)) := by
  rw [eq_false_iff_not (keyLtB_true_iff k1 k2)]
  push_neg
  constructor
  · rintro ⟨hx, hrest⟩
    refine ⟨hx, fun hex => ?_⟩
    obtain ⟨hy, hs⟩ := hrest hex
    exact ⟨hy, fun hey => Bool.eq_false_iff.mpr (hs hey)⟩
  · rintro ⟨hx, hrest⟩
    refine ⟨hx, fun hex => ?_⟩
    obtain ⟨hy, hs⟩ := hrest hex
    exact ⟨hy, fun hey => Bool.eq_false_iff.mp (hs hey)⟩

theorem keyLtB_asymm (k1 k2 : Int × Int × String) (h : keyLtB k1 k2 = true) :
    keyLtB k2 k1 = false := by
  rw [keyLtB_true_iff] at h
  rw [keyLtB_false_iff]
  rcases h with h | ⟨hx, h⟩
  · exact ⟨by omega, fun he => absurd he (by omega)⟩
  · refine ⟨by omega, fun _ => ?_⟩
    rcases h with h | ⟨hy, hs⟩
    · exact ⟨by omega, fun he => absurd he (by omega)⟩
    · exact ⟨by omega, fun _ => strLtB_asymm _ _ hs⟩

theorem keyLtB_neg_trans (k1 k2 k3 : Int × Int × String)
    (h1 : keyLtB k2 k1 = false) (h2 : keyLtB k3 k2 = false) :
    keyLtB k3 k1 = false := by
  rw [keyLtB_false_iff] at h1 h2 ⊢
  obtain ⟨hx21, h1r⟩ := h1
  obtain ⟨hx32, h2r⟩ := h2
  refine ⟨by omega, fun hx31 => ?_⟩
  obtain ⟨hy21, h1s⟩ := h1r (by omega)
  obtain ⟨hy32, h2s⟩ := h2r (by omega)
  refine ⟨by omega, fun hy31 => ?_⟩
  exact strLtB_neg_trans _ _ _ (h1s (by omega)) (h2s (by omega))

theorem keyLeB_total (st : List String) (a b : PickleMappingEntry) :
    keyLeB st a b = true ∨ keyLeB st b a = true := by
  simp only [keyLeB, itemLtB, Bool.not_eq_true']
  by_cases h : keyLtB (sortkey st b) (sortkey st a) = true
  · right; exact keyLtB_asymm _ _ h
  · left; exact Bool.eq_false_iff.mpr h

theorem keyLeB_trans (st : List String) (a b c : PickleMappingEntry)
    (h1 : keyLeB st a b = true) (h2 : keyLeB st b c = true) :
    keyLeB st a c = true := by
  simp only [keyLeB, itemLtB, Bool.not_eq_true'] at h1 h2 ⊢
  exact keyLtB_neg_trans _ _ _ h1 h2

theorem srcLeB_total (a b : PickleMappingEntry) :
    srcLeB a b = true ∨ srcLeB b a = true := by
  simp only [srcLeB, Bool.not_eq_true']
  by_cases h : strLtB b.source.data a.source.data = true
  · right; exact strLtB_asymm _ _ h
  · left; exact Bool.eq_false_iff.mpr h

theorem srcLeB_trans (a b c : PickleMappingEntry)
    (h1 : srcLeB a b = true) (h2 : srcLeB b c = true) :
    srcLeB a c = true := by
  simp only [srcLeB, Bool.not_eq_true'] at h1 h2 ⊢
  exact strLtB_neg_trans _ _ _ h1 h2

/-! Facts about the stable sort model. -/

theorem ordInsert_perm (le : PickleMappingEntry → PickleMappingEntry → Bool)
    (a : PickleMappingEntry) :
    ∀ l, (ordInsert le a l).Perm (a :: l) := by
  intro l
  induction l with
  | nil => exact List.Perm.refl _
  | cons b t ih =>
    simp only [ordInsert]
    split
    · exact List.Perm.refl _
    · exact (ih.cons b).trans (List.Perm.swap a b t)

theorem pySort_perm (le : PickleMappingEntry → PickleMappingEntry → Bool) :
    ∀ l, (pySort le l).Perm l := by
  intro l
  induction l with
  | nil => exact List.Perm.refl _
  | cons a t ih =>
    exact (ordInsert_perm le a (pySort le t)).trans (ih.cons a)

theorem mem_ordInsert (le : PickleMappingEntry → PickleMappingEntry → Bool)
    (a x : PickleMappingEntry) (l : List PickleMappingEntry) :
    x ∈ ordInsert le a l ↔ x = a ∨ x ∈ l := by
  constructor
  · intro hx
    have := (ordInsert_perm le a l).mem_iff.mp hx
    simpa using this
  · intro hx
    apply (ordInsert_perm le a l).mem_iff.mpr
    simpa using hx

theorem pairwise_ordInsert (le : PickleMappingEntry → PickleMappingEntry → Bool)
    (htot : ∀ x y, le x y = true ∨ le y x = true)
    (htrans : ∀ x y z, le x y = true → le y z = true → le x z = true)
    (a : PickleMappingEntry) :
    ∀ l, l.Pairwise (fun x y => le x y = true) →
      (ordInsert le a l).Pairwise (fun x y => le x y = true) := by
  intro l
  induction l with
  | nil => intro _; simp [ordInsert]
  | cons b t ih =>
    intro h
    rw [List.pairwise_cons] at h
    obtain ⟨hb, ht⟩ := h
    simp only [ordInsert]
    split
    · rename_i hab
      rw [List.pairwise_cons]
      refine ⟨?_, List.pairwise_cons.mpr ⟨hb, ht⟩⟩
      intro y hy
      rcases hy with _ | hy
      · exact hab
      · rename_i hy
        exact htrans a b y hab (hb y hy)
    · rename_i hab
      rw [List.pairwise_cons]
      refine ⟨?_, ih ht⟩
      intro y hy
      rcases (mem_ordInsert le a y t).mp hy with hya | hy
      · rw [hya]
        rcases htot a b with h | h
        · exact absurd h hab
        · exact h
      · exact hb y hy

theorem pySort_pairwise (le : PickleMappingEntry → PickleMappingEntry → Bool)
    (htot : ∀ x y, le x y = true ∨ le y x = true)
    (htrans : ∀ x y z, le x y = true → le y z = true → le x z = true) :
    ∀ l, (pySort le l).Pairwise (fun x y => le x y = true) := by
  intro l
  induction l with
  | nil => simp [pySort]
  | cons a t ih =>
    exact pairwise_ordInsert le htot htrans a (pySort le t) ih

/-! Facts about Cache renumbering. -/

/-- Forget an entry's cached position (the one field `pickleListVonCache.set`
rewrites). -/
def eraseI (e : PickleMappingEntry) : PickleMappingEntry := { e with i := none }

theorem renumberFrom_length (k : Nat) (l : List PickleMappingEntry) :
    (renumberFrom k l).length = l.length := by
  induction l generalizing k with
  | nil => rfl
  | cons e t ih => simp [renumberFrom, ih]

theorem renumberFrom_get? (l : List PickleMappingEntry) :
    ∀ k p, (renumberFrom k l).get? p =
      (l.get? p).map (fun e => { e with i := some (k + p) }) := by
  induction l with
  | nil => intro k p; cases p <;> rfl
  | cons e t ih =>
    intro k p
    cases p with
    | zero => rfl
    | succ p =>
      simp only [renumberFrom, List.get?_cons_succ, ih (k + 1) p]
      have harith : k + 1 + p = k + (p + 1) := by omega
      rw [harith]

theorem map_eraseI_renumberFrom (l : List PickleMappingEntry) :
    ∀ k, (renumberFrom k l).map eraseI = l.map eraseI := by
  induction l with
  | nil => intro k; rfl
  | cons e t ih => intro k; simp [renumberFrom, eraseI, ih]

theorem mem_renumberFrom (x : PickleMappingEntry) (l : List PickleMappingEntry) :
    ∀ k, x ∈ renumberFrom k l → ∃ b ∈ l, ∃ m : Nat, x = { b with i := some m } := by
  induction l with
  | nil => intro k h; cases h
  | cons e t ih =>
    intro k h
    rcases h with _ | h
    · exact ⟨e, List.mem_cons_self e t, k, rfl⟩
    · rename_i h
      obtain ⟨b, hb, m, rfl⟩ := ih (k + 1) h
      exact ⟨b, List.mem_cons_of_mem e hb, m, rfl⟩

theorem pairwise_renumberFrom (R : PickleMappingEntry → PickleMappingEntry → Prop)
    (hR : ∀ a b x y, R a b → R { a with i := x } { b with i := y })
    (l : List PickleMappingEntry) :
    ∀ k, l.Pairwise R → (renumberFrom k l).Pairwise R := by
  induction l with
  | nil => intro k _; exact List.Pairwise.nil
  | cons e t ih =>
    intro k h
    rw [List.pairwise_cons] at h
    obtain ⟨he, ht⟩ := h
    rw [renumberFrom, List.pairwise_cons]
    refine ⟨?_, ih (k + 1) ht⟩
    intro y hy
    obtain ⟨b, hb, m, rfl⟩ := mem_renumberFrom y t (k + 1) hy
    exact hR e b (some k) (some m) (he b hb)

/-- The Cache position invariant: the entry stored at 0-based position `p`
carries `i = p`. -/
def cacheInv (c : List PickleMappingEntry) : Prop :=
  ∀ p e, c.get? p = some e → e.i = some p

theorem cacheInv_cacheSet (s : List PickleMappingEntry) : cacheInv (cacheSet s) := by
  intro p e h
  rw [cacheSet, renumberFrom_get? s 0 p] at h
  cases hs : s.get? p with
  | none => rw [hs] at h; cases h
  | some b =>
    rw [hs] at h
    simp only [Option.map_some'] at h
    injection h with h2
    rw [← h2]
    show some (0 + p) = some p
    rw [Nat.zero_add]

theorem cacheSet_eq_nil (s : List PickleMappingEntry) (h : cacheSet s = []) :
    s = [] := by
  have hl : s.length = 0 := by
    rw [← renumberFrom_length 0 s]
    show (cacheSet s).length = 0
    rw [h]
    rfl
  exact List.eq_nil_of_length_eq_zero hl

theorem runSearchCore_spec (st : List String) (puid : String → String)
    (evil : Option (List String)) (q : SearchQuery)
    (pool cache result cache2 : List PickleMappingEntry)
    (h : runSearchCore st puid evil q pool cache = (result, cache2)) :
    (result ≠ [] → cache2 = result ∧ cacheInv cache2) ∧
      (result = [] → cache2 = cache) := by
  unfold runSearchCore at h
  set sorted := (if q.alph_sort
    then pySort srcLeB (pool.filter (searchMatches puid evil q))
    else pySort (keyLeB st) (pool.filter (searchMatches puid evil q))) with hsorted
  by_cases he : sorted.isEmpty
  · rw [if_pos he] at h
    injection h with h1 h2
    constructor
    · intro hne
      rw [← h1] at hne
      exact absurd (List.isEmpty_iff.mp he) hne
    · intro _
      exact h2.symm
  · rw [if_neg he] at h
    injection h with h1 h2
    constructor
    · intro _
      refine ⟨h2.symm.trans h1, ?_⟩
      rw [← h2]
      exact cacheInv_cacheSet sorted
    · intro h0
      rw [← h1] at h0
      exact absurd (by rw [cacheSet_eq_nil sorted h0]; rfl) he

/-- Claim C1: when `runSearch` succeeds with a non-empty result, the Cache is
overwritten with exactly the returned list, every stored entry carrying its
0-based position in the new sequence; an empty result leaves the Cache
untouched. -/
theorem runSearch_nonempty_overwrites_cache (st : List String)
    (puid : String → String) (evil : Option (List String)) (index : Index)
    (cache : List PickleMappingEntry) (q : SearchQuery)
    (result cache2 : List PickleMappingEntry)
    (h : runSearch st puid evil index cache q = Except.ok (result, cache2)) :
    (result ≠ [] → cache2 = result ∧ cacheInv cache2) ∧
      (result = [] → cache2 = cache) := by
  rw [runSearch] at h
  cases hp : (if q.refine then cacheValues cache else Except.ok (List.map Prod.snd index)) with
  | error e =>
    rw [hp] at h
    cases h
  | ok pool =>
    rw [hp] at h
    simp only at h
    injection h with h1
    exact runSearchCore_spec st puid evil q pool cache result cache2 h1

/-- Sample entry used by concrete witnesses. -/
def entryA : PickleMappingEntry := { source := "A", desc := "first sample" }

/-- Witness for claim C1: a concrete successful one-hit search against a
one-entry Index overwrites the (initially empty) Cache with the renumbered
result. -/
theorem runSearch_nonempty_overwrites_cache_witness :
    runSearch [] (fun _ => "") none [("A", entryA)] [] {} =
        Except.ok ([{ entryA with i := some 0 }], [{ entryA with i := some 0 }]) ∧
      (([{ entryA with i := some 0 }] : List PickleMappingEntry) ≠ [] →
        ([{ entryA with i := some 0 }] : List PickleMappingEntry) =
            [{ entryA with i := some 0 }] ∧
          cacheInv [{ entryA with i := some 0 }]) ∧
      (([{ entryA with i := some 0 }] : List PickleMappingEntry) = [] →
        ([{ entryA with i := some 0 }] : List PickleMappingEntry) = []) :=
  ⟨rfl, runSearch_nonempty_overwrites_cache [] (fun _ => "") none [("A", entryA)]
    [] {} [{ entryA with i := some 0 }] [{ entryA with i := some 0 }] rfl⟩

/-! Facts about the cache scan of `updateEntryByProblem`. -/

theorem findSourceIdx_lt_length (src : String) :
    ∀ (c : List PickleMappingEntry) (j : Nat),
      findSourceIdx src c = some j → j < c.length := by
  intro c
  induction c with
  | nil => intro j h; cases h
  | cons e t ih =>
    intro j h
    rw [findSourceIdx] at h
    by_cases hsrc : e.source = src
    · rw [if_pos hsrc] at h
      injection h with h1
      rw [← h1]
      simp
    · rw [if_neg hsrc] at h
      cases hrec : findSourceIdx src t with
      | none => rw [hrec] at h; cases h
      | some j0 =>
        rw [hrec] at h
        simp only [Option.map_some'] at h
        injection h with h1
        have := ih j0 hrec
        simp only [List.length_cons]
        omega

theorem findSourceIdx_found (src : String) :
    ∀ (c : List PickleMappingEntry) (j : Nat),
      findSourceIdx src c = some j →
      ∃ e, c.get? j = some e ∧ e.source = src := by
  intro c
  induction c with
  | nil => intro j h; cases h
  | cons e t ih =>
    intro j h
    rw [findSourceIdx] at h
    by_cases hsrc : e.source = src
    · rw [if_pos hsrc] at h
      injection h with h1
      exact ⟨e, by rw [← h1]; rfl, hsrc⟩
    · rw [if_neg hsrc] at h
      cases hrec : findSourceIdx src t with
      | none => rw [hrec] at h; cases h
      | some j0 =>
        rw [hrec] at h
        simp only [Option.map_some'] at h
        injection h with h1
        obtain ⟨e0, he0, hs0⟩ := ih j0 hrec
        exact ⟨e0, by rw [← h1]; simpa using he0, hs0⟩

theorem findSourceIdx_none_iff (src : String) :
    ∀ c : List PickleMappingEntry,
      findSourceIdx src c = none ↔ ∀ e ∈ c, e.source ≠ src := by
  intro c
  induction c with
  | nil => simp [findSourceIdx]
  | cons e t ih =>
    rw [findSourceIdx]
    by_cases hsrc : e.source = src
    · rw [if_pos hsrc]
      simp [hsrc]
    · rw [if_neg hsrc]
      constructor
      · intro h
        have hn : findSourceIdx src t = none := by
          cases hrec : findSourceIdx src t with
          | none => rfl
          | some j0 => rw [hrec] at h; cases h
        intro x hx
        rcases List.mem_cons.mp hx with rfl | hx
        · exact hsrc
        · exact (ih.mp hn) x hx
      · intro h
        have hn : ∀ x ∈ t, x.source ≠ src :=
          fun x hx => h x (List.mem_cons_of_mem e hx)
        rw [ih.mpr hn]
        rfl

theorem updateCache_cacheInv (src : String) (ne : PickleMappingEntry)
    (cache : List PickleMappingEntry) (hinv : cacheInv cache) :
    cacheInv (updateCache src ne cache) := by
  unfold updateCache
  cases hf : findSourceIdx src cache with
  | none => exact cacheInv_cacheSet (cache ++ [ne])
  | some j =>
    show cacheInv (cache.set j { ne with i := some j })
    intro p e h
    by_cases hpj : p = j
    · subst hpj
      rw [List.get?_set_eq_of_lt _ (findSourceIdx_lt_length src cache p hf)] at h
      injection h with h1
      rw [← h1]
    · rw [List.get?_set_ne _ _ (fun hh => hpj hh.symm)] at h
      exact hinv p e h

theorem updateEntryByProblem_ok (index : Index) (cache : List PickleMappingEntry)
    (old_entry : PickleMappingEntry) (new_problem : Problem)
    (index2 : Index) (cache2 : List PickleMappingEntry)
    (h : updateEntryByProblem index cache old_entry new_problem =
      Except.ok (index2, cache2)) :
    updateIndexStep index old_entry.source
        (Problem.entry { new_problem with i := old_entry.i }) = Except.ok index2 ∧
      cache2 = updateCache old_entry.source
        (Problem.entry { new_problem with i := old_entry.i }) cache := by
  rw [updateEntryByProblem] at h
  cases hstep : updateIndexStep index old_entry.source
      (Problem.entry { new_problem with i := old_entry.i }) with
  | error e => rw [hstep] at h; cases h
  | ok index1 =>
    rw [hstep] at h
    simp only at h
    injection h with h1
    injection h1 with ha hb
    exact ⟨by rw [ha], hb.symm⟩

/-- Claim C4: every Cache-writing operation leaves the store satisfying the
position invariant — `set` (hence `setCache`), `append` (`augmentCache`),
`clear` (`clearCache`) renumber unconditionally, and the in-place update of
`updateEntryByProblem` preserves the invariant, stamping the replaced
slot with its own index. -/
theorem cache_write_positions_invariant :
    (∀ s, cacheInv (setCache s)) ∧
      (∀ c es, cacheInv (augmentCache c es)) ∧
      cacheInv clearCache ∧
      (∀ index cache old_entry new_problem index2 cache2,
        cacheInv cache →
        updateEntryByProblem index cache old_entry new_problem =
          Except.ok (index2, cache2) →
        cacheInv cache2) := by
  refine ⟨fun s => cacheInv_cacheSet s, fun c es => cacheInv_cacheSet (c ++ es),
    cacheInv_cacheSet [], ?_⟩
  intro index cache old_entry new_problem index2 cache2 hinv h
  obtain ⟨_, hc⟩ := updateEntryByProblem_ok index cache old_entry new_problem
    index2 cache2 h
  rw [hc]
  exact updateCache_cacheInv _ _ cache hinv

/-- Sample entry with a stamped position, as stored by `cacheSet`. -/
def entryA0 : PickleMappingEntry := { entryA with i := some 0 }

/-- Sample replacement problem sharing `entryA`'s source. -/
def problemA2 : Problem := { source := "A", desc := "updated sample" }

/-- Claim C5: a successful `updateEntryByProblem` refreshes the Cache: when
some cache entry's source equals the old identifier, the first such entry is
replaced in place by the new entry stamped with the found index and every
other slot is untouched; when none matches, the new entry is appended at the
end (the append goes through `set`, so every slot is position-stamped). -/
theorem updateEntryByProblem_cache_refresh (index : Index)
    (cache : List PickleMappingEntry) (old_entry : PickleMappingEntry)
    (new_problem : Problem) (index2 : Index) (cache2 : List PickleMappingEntry)
    (h : updateEntryByProblem index cache old_entry new_problem =
      Except.ok (index2, cache2)) :
    (∀ j, findSourceIdx old_entry.source cache = some j →
      (∃ e, cache.get? j = some e ∧ e.source = old_entry.source) ∧
        cache2.get? j = some { Problem.entry { new_problem with i := old_entry.i }
          with i := some j } ∧
        (∀ k, k ≠ j → cache2.get? k = cache.get? k)) ∧
      (findSourceIdx old_entry.source cache = none →
        (∀ e ∈ cache, e.source ≠ old_entry.source) ∧
          cache2.length = cache.length + 1 ∧
          cache2.get? cache.length =
            some { Problem.entry { new_problem with i := old_entry.i }
              with i := some cache.length } ∧
          (∀ k e0, cache.get? k = some e0 →
            cache2.get? k = some { e0 with i := some k })) := by
  obtain ⟨_, hc⟩ := updateEntryByProblem_ok index cache old_entry new_problem
    index2 cache2 h
  constructor
  · intro j hj
    rw [hc, updateCache, hj]
    refine ⟨findSourceIdx_found old_entry.source cache j hj, ?_, ?_⟩
    · exact List.get?_set_eq_of_lt _ (findSourceIdx_lt_length _ cache j hj)
    · intro k hk
      exact List.get?_set_ne _ _ (fun hh => hk hh.symm)
  · intro hn
    rw [hc, updateCache, hn]
    refine ⟨(findSourceIdx_none_iff old_entry.source cache).mp hn, ?_, ?_, ?_⟩
    · show (renumberFrom 0 (cache ++ _)).length = cache.length + 1
      rw [renumberFrom_length, List.length_append]
      rfl
    · show (renumberFrom 0 (cache ++ _)).get? cache.length = _
      rw [renumberFrom_get?, List.get?_concat_length]
      show some _ = some _
      rw [Nat.zero_add]
    · intro k e0 hk
      have hklt : k < cache.length := by
        cases hlt : Nat.decLt k cache.length with
        | isTrue hh => exact hh
        | isFalse hh =>
          exact absurd hk (by rw [List.get?_eq_none.mpr (by omega)]; exact
            fun hx => Option.noConfusion hx)
      show (renumberFrom 0 (cache ++ _)).get? k = _
      rw [renumberFrom_get?, List.get?_append hklt, hk]
      show some _ = some _
      rw [Nat.zero_add]

/-- Witness for claim C5: the concrete in-place branch — updating the lone
cached entry `entryA0` replaces slot 0 with the stamped new entry. -/
theorem updateEntryByProblem_cache_refresh_witness :
    findSourceIdx "A" [entryA0] = some 0 ∧
      [({ Problem.entry { problemA2 with i := some 0 } with i := some 0 })].get? 0 =
        some { Problem.entry { problemA2 with i := some 0 } with i := some 0 } :=
  ⟨rfl,
    ((updateEntryByProblem_cache_refresh [("A", entryA0)] [entryA0] entryA0
      problemA2 [("A", Problem.entry { problemA2 with i := some 0 })]
      [{ Problem.entry { problemA2 with i := some 0 } with i := some 0 }]
      rfl).1 0 rfl).2.1⟩

/-! The Index key-agreement invariant (Python `dict` semantics: unique keys,
and every store in the source uses the entry's own source as the key). -/

/-- The Index invariant: every stored entry's `source` equals its key, and
keys are unique (as a Python `dict` guarantees). -/
def indexInv (d : Index) : Prop :=
  (∀ kv ∈ d, (Prod.snd kv).source = Prod.fst kv) ∧ (List.map Prod.fst d).Nodup

theorem mem_keys_dictInsert (k x : String) (v : PickleMappingEntry) :
    ∀ d : Index, x ∈ List.map Prod.fst (dictInsert d k v) →
      x ∈ List.map Prod.fst d ∨ x = k := by
  intro d
  induction d with
  | nil =>
    intro h
    simp [dictInsert] at h
    exact Or.inr h
  | cons kv rest ih =>
    obtain ⟨k0, v0⟩ := kv
    intro h
    rw [dictInsert] at h
    by_cases hk : k0 = k
    · rw [if_pos hk] at h
      simp only [List.map_cons, List.mem_cons] at h
      rcases h with rfl | h
      · exact Or.inr rfl
      · exact Or.inl (by rw [List.map_cons]; exact List.mem_cons.mpr (Or.inr h))
    · rw [if_neg hk] at h
      simp only [List.map_cons, List.mem_cons] at h
      rcases h with rfl | h
      · exact Or.inl (by rw [List.map_cons]; exact List.mem_cons.mpr (Or.inl rfl))
      · rcases ih h with hx | hx
        · exact Or.inl (by rw [List.map_cons]; exact List.mem_cons.mpr (Or.inr hx))
        · exact Or.inr hx

theorem mem_dictInsert (k : String) (v : PickleMappingEntry) :
    ∀ (d : Index) (kv : String × PickleMappingEntry), kv ∈ dictInsert d k v →
      kv ∈ d ∨ kv = (k, v) := by
  intro d
  induction d with
  | nil =>
    intro kv h
    simp [dictInsert] at h
    exact Or.inr h
  | cons kv0 rest ih =>
    obtain ⟨k0, v0⟩ := kv0
    intro kv h
    rw [dictInsert] at h
    by_cases hk : k0 = k
    · rw [if_pos hk] at h
      rcases List.mem_cons.mp h with rfl | h
      · exact Or.inr rfl
      · exact Or.inl (List.mem_cons_of_mem _ h)
    · rw [if_neg hk] at h
      rcases List.mem_cons.mp h with rfl | h
      · exact Or.inl (List.mem_cons_self _ _)
      · rcases ih kv h with hx | hx
        · exact Or.inl (List.mem_cons_of_mem _ hx)
        · exact Or.inr hx

theorem dictInsert_indexInv (k : String) (v : PickleMappingEntry)
    (hkv : v.source = k) :
    ∀ d : Index, indexInv d → indexInv (dictInsert d k v) := by
  intro d
  induction d with
  | nil =>
    intro _
    exact ⟨by simp [dictInsert]; exact hkv, by simp [dictInsert]⟩
  | cons kv0 rest ih =>
    obtain ⟨k0, v0⟩ := kv0
    intro hinv
    obtain ⟨hag, hnd⟩ := hinv
    rw [List.map_cons, List.nodup_cons] at hnd
    obtain ⟨hk0, hndr⟩ := hnd
    have hinvr : indexInv rest :=
      ⟨fun kv hkvm => hag kv (List.mem_cons_of_mem _ hkvm), hndr⟩
    rw [dictInsert]
    by_cases hk : k0 = k
    · rw [if_pos hk]
      constructor
      · intro kv hkvm
        rcases List.mem_cons.mp hkvm with rfl | hm
        · exact hkv
        · exact hag kv (List.mem_cons_of_mem _ hm)
      · rw [List.map_cons, List.nodup_cons]
        exact ⟨by rw [← hk]; exact hk0, hndr⟩
    · rw [if_neg hk]
      obtain ⟨hagi, hndi⟩ := ih hinvr
      constructor
      · intro kv hkvm
        rcases List.mem_cons.mp hkvm with rfl | hm
        · exact hag (k0, v0) (List.mem_cons_self _ _)
        · exact hagi kv hm
      · rw [List.map_cons, List.nodup_cons]
        refine ⟨?_, hndi⟩
        intro hmem
        rcases mem_keys_dictInsert k k0 v rest hmem with hx | hx
        · exact hk0 hx
        · exact hk hx

theorem mem_dictDelete (k : String) :
    ∀ (d : Index) (kv : String × PickleMappingEntry),
      kv ∈ dictDelete d k → kv ∈ d := by
  intro d
  induction d with
  | nil => intro kv h; cases h
  | cons kv0 rest ih =>
    obtain ⟨k0, v0⟩ := kv0
    intro kv h
    rw [dictDelete] at h
    by_cases hk : k0 = k
    · rw [if_pos hk] at h
      exact List.mem_cons_of_mem _ h
    · rw [if_neg hk] at h
      rcases List.mem_cons.mp h with rfl | h
      · exact List.mem_cons_self _ _
      · exact List.mem_cons_of_mem _ (ih kv h)

theorem keys_dictDelete_sublist (k : String) :
    ∀ d : Index,
      (List.map Prod.fst (dictDelete d k)).Sublist (List.map Prod.fst d) := by
  intro d
  induction d with
  | nil => simp [dictDelete]
  | cons kv0 rest ih =>
    obtain ⟨k0, v0⟩ := kv0
    rw [dictDelete]
    by_cases hk : k0 = k
    · rw [if_pos hk]
      exact (List.Sublist.refl _).cons k0
    · rw [if_neg hk]
      rw [List.map_cons, List.map_cons]
      exact ih.cons₂ k0

theorem dictDelete_indexInv (k : String) (d : Index) (hinv : indexInv d) :
    indexInv (dictDelete d k) := by
  obtain ⟨hag, hnd⟩ := hinv
  exact ⟨fun kv hm => hag kv (mem_dictDelete k d kv hm),
    hnd.sublist (keys_dictDelete_sublist k d)⟩

theorem dictGet_of_mem (k : String) (v : PickleMappingEntry) :
    ∀ d : Index, (k, v) ∈ d → (List.map Prod.fst d).Nodup →
      dictGet d k = some v := by
  intro d
  induction d with
  | nil => intro h _; cases h
  | cons kv0 rest ih =>
    obtain ⟨k0, v0⟩ := kv0
    intro h hnd
    rw [List.map_cons, List.nodup_cons] at hnd
    obtain ⟨hk0, hndr⟩ := hnd
    rw [dictGet]
    rcases List.mem_cons.mp h with heq | hm
    · injection heq with h1 h2
      rw [if_pos h1.symm, h2]
    · by_cases hk : k0 = k
      · exfalso
        apply hk0
        rw [hk]
        exact List.mem_map.mpr ⟨(k, v), hm, rfl⟩
      · rw [if_neg hk]
        exact ih hm hndr

theorem updateIndexStep_indexInv (d : Index) (old_source : String)
    (ne : PickleMappingEntry) (d2 : Index) (hinv : indexInv d)
    (h : updateIndexStep d old_source ne = Except.ok d2) : indexInv d2 := by
  rw [updateIndexStep] at h
  by_cases h1 : old_source = ne.source
  · rw [if_pos h1] at h
    injection h with h2
    rw [← h2]
    exact dictInsert_indexInv ne.source ne rfl d hinv
  · rw [if_neg h1] at h
    by_cases h3 : dictHasKey d old_source
    · rw [if_pos h3] at h
      injection h with h2
      rw [← h2]
      exact dictInsert_indexInv ne.source ne rfl _
        (dictDelete_indexInv old_source d hinv)
    · rw [if_neg h3] at h
      cases h

theorem rebuildFold_indexInv :
    ∀ (docs : List Problem) (d : Index) (rng : List Nat) (r : Nat),
      indexInv d → indexInv (docs.foldl rebuildStep (d, rng, r)).1 := by
  intro docs
  induction docs with
  | nil => intro d rng r hinv; exact hinv
  | cons p rest ih =>
    intro d rng r hinv
    rw [List.foldl_cons]
    rw [rebuildStep]
    by_cases hk : dictHasKey d p.source
    · rw [if_pos hk]
      exact ih _ _ _ (dictInsert_indexInv (fakeSourceName (rng.headD 0))
        (Problem.entry { p with source := fakeSourceName (rng.headD 0) }) rfl d hinv)
    · rw [if_neg hk]
      exact ih _ _ _ (dictInsert_indexInv p.source p.entry rfl d hinv)

/-- Claim C3: every mutating Index operation preserves the key-agreement
invariant (entry stored under its own `source`, keys unique) — and under the
invariant, looking up `e.source` returns `e` for every stored entry. The
rebuilt Index satisfies the invariant unconditionally. -/
theorem index_key_agreement :
    (∀ (d : Index) (e : PickleMappingEntry),
        indexInv d → indexInv (addEntryToIndex d e)) ∧
      (∀ (d : Index) (p : Problem), indexInv d → indexInv (addProblemToIndex d p)) ∧
      (∀ (d : Index) (c : List PickleMappingEntry) (o : PickleMappingEntry)
          (np : Problem) (d2 : Index) (c2 : List PickleMappingEntry),
        indexInv d →
        updateEntryByProblem d c o np = Except.ok (d2, c2) → indexInv d2) ∧
      (∀ (docs : List Problem) (rng : List Nat),
        indexInv (rebuildIndex docs rng).1) ∧
      (∀ d : Index, indexInv d →
        ∀ kv ∈ d, dictGet d (Prod.snd kv).source = some (Prod.snd kv)) := by
  refine ⟨?_, ?_, ?_, ?_, ?_⟩
  · intro d e hinv
    exact dictInsert_indexInv e.source e rfl d hinv
  · intro d p hinv
    exact dictInsert_indexInv p.source p.entry rfl d hinv
  · intro d c o np d2 c2 hinv h
    obtain ⟨hstep, _⟩ := updateEntryByProblem_ok d c o np d2 c2 h
    exact updateIndexStep_indexInv d o.source _ d2 hinv hstep
  · intro docs rng
    exact rebuildFold_indexInv docs [] rng 0 ⟨by simp, by simp⟩
  · intro d hinv kv hm
    obtain ⟨hag, hnd⟩ := hinv
    rw [hag kv hm]
    have : (Prod.fst kv, Prod.snd kv) ∈ d := by
      cases kv
      exact hm
    exact dictGet_of_mem (Prod.fst kv) (Prod.snd kv) d this hnd

/-- Witness for claim C3: the invariant holds for a concrete one-entry
Index, is preserved by a concrete `addEntryToIndex`, and lookup of the
stored entry's source returns it. -/
theorem index_key_agreement_witness :
    indexInv [("A", entryA)] ∧
      indexInv (addEntryToIndex [("A", entryA)] entryA0) ∧
      dictGet [("A", entryA)] "A" = some entryA :=
  ⟨⟨by decide, by decide⟩,
    index_key_agreement.1 [("A", entryA)] entryA0 ⟨by decide, by decide⟩,
    index_key_agreement.2.2.2.2 [("A", entryA)] ⟨by decide, by decide⟩
      ("A", entryA) (List.mem_cons_self _ _)⟩

/-- Witness for claim C4: a concrete in-place `updateEntryByProblem` against
a one-entry Cache (that satisfies the invariant) preserves the invariant. -/
theorem cache_write_positions_invariant_witness :
    cacheInv [entryA0] ∧
      updateEntryByProblem [("A", entryA0)] [entryA0] entryA0 problemA2 =
        Except.ok ([("A", Problem.entry { problemA2 with i := some 0 })],
          [{ Problem.entry { problemA2 with i := some 0 } with i := some 0 }]) ∧
      cacheInv [{ Problem.entry { problemA2 with i := some 0 } with i := some 0 }] :=
  ⟨cacheInv_cacheSet [entryA], rfl,
    cache_write_positions_invariant.2.2.2 [("A", entryA0)] [entryA0] entryA0
      problemA2 [("A", Problem.entry { problemA2 with i := some 0 })]
      [{ Problem.entry { problemA2 with i := some 0 } with i := some 0 }]
      (cacheInv_cacheSet [entryA]) rfl⟩

/-! Ordering-key claims. -/

theorem sortkey_hardness_none (st : List String) (e : PickleMappingEntry)
    (h : e.hardness = none) : sortkey st e = (sortvalue st e, -1, e.source) := by
  simp [sortkey, h]

theorem sortkey_hardness_some (st : List String) (e : PickleMappingEntry)
    (n : Int) (h : e.hardness = some n) :
    sortkey st e = (sortvalue st e, n, e.source) := by
  simp [sortkey, h]

/-- Sample entry with a negative integer hardness. -/
def entryNegHard : PickleMappingEntry := { source := "a", hardness := some (-2) }

/-- Sample entry with an absent hardness. -/
def entryNoHard : PickleMappingEntry := { source := "b" }

/-- Counterexample to claim C9 as stated: the sentinel is `-1`, which is not
lower than every integer hardness — in the same sort bucket, the entry with
absent hardness sorts strictly after an entry whose hardness is `-2`. -/
theorem absent_hardness_not_lowest :
    sortvalue [] entryNegHard = sortvalue [] entryNoHard ∧
      entryNoHard.hardness = none ∧
      entryNegHard.hardness = some (-2) ∧
      itemLtB [] entryNegHard entryNoHard = true ∧
      itemLtB [] entryNoHard entryNegHard = false := by
  refine ⟨rfl, rfl, rfl, ?_, ?_⟩ <;> decide

/-- Claim C9 (amended): the absent-hardness sentinel in the ordering key is
`-1`, so in the same sort bucket an entry with absent hardness sorts
strictly before — hence never after — any entry whose hardness is a
nonnegative integer (not before an arbitrary integer: negative hardnesses
sort below the sentinel). -/
theorem absent_hardness_before_nonneg_hardness (st : List String)
    (e1 e2 : PickleMappingEntry) (n : Int)
    (hsv : sortvalue st e1 = sortvalue st e2)
    (h1 : e1.hardness = none) (h2 : e2.hardness = some n) (hn : 0 ≤ n) :
    itemLtB st e1 e2 = true ∧ itemLtB st e2 e1 = false := by
  have hlt : itemLtB st e1 e2 = true := by
    rw [itemLtB, keyLtB_true_iff, sortkey_hardness_none st e1 h1,
      sortkey_hardness_some st e2 n h2]
    refine Or.inr ⟨hsv, Or.inl ?_⟩
    show (-1 : Int) < n
    omega
  exact ⟨hlt, keyLtB_asymm _ _ hlt⟩

/-- Sample entry with a nonnegative hardness. -/
def entryHard5 : PickleMappingEntry := { source := "c", hardness := some 5 }

/-- Witness for amended claim C9: concretely, the absent-hardness entry
sorts before a hardness-5 entry in the same (empty) bucket. -/
theorem absent_hardness_before_nonneg_hardness_witness :
    sortvalue [] entryNoHard = sortvalue [] entryHard5 ∧
      itemLtB [] entryNoHard entryHard5 = true ∧
      itemLtB [] entryHard5 entryNoHard = false :=
  ⟨rfl, absent_hardness_before_nonneg_hardness [] entryNoHard entryHard5 5
    rfl rfl rfl (by decide)⟩

/-- Sample entry for the equality claim (left). -/
def entryEqL : PickleMappingEntry :=
  { source := "S", desc := "d1", author := some "x", url := some "u1",
    hardness := some 3, tags := ["alg", "extra1"], path := "p1", i := some 1 }

/-- Sample entry for the equality claim (right): identical ordering key,
different everything else. -/
def entryEqR : PickleMappingEntry :=
  { source := "S", desc := "d2", author := none, url := none,
    hardness := some 3, tags := ["alg", "other2"], path := "p2", i := none }

/-- Claim C10: `__eq__` is exactly ordering-key equality — two entries
compare equal if and only if their sort keys agree, in particular concrete
entries differing in description, author, url, path, cached position and
non-priority tags still compare equal. -/
theorem eq_determined_by_sortkey :
    (∀ (st : List String) (a b : PickleMappingEntry),
        itemEqB st a b = true ↔ sortkey st a = sortkey st b) ∧
      (itemEqB ["alg"] entryEqL entryEqR = true ∧
        entryEqL.desc ≠ entryEqR.desc ∧ entryEqL.author ≠ entryEqR.author ∧
        entryEqL.url ≠ entryEqR.url ∧ entryEqL.path ≠ entryEqR.path ∧
        entryEqL.i ≠ entryEqR.i ∧ entryEqL.tags ≠ entryEqR.tags) := by
  constructor
  · intro st a b
    exact decide_eq_true_iff
  · refine ⟨?_, ?_, ?_, ?_, ?_, ?_, ?_⟩ <;> decide

/-! Cache lookup by external position number. -/

/-- Counterexample to claim C7 as stated: on a one-entry cache, position
number `0` is outside `1..1`, yet `getEntryByCacheNum` silently returns the
entry — Python resolves the internal key `-1` as negative indexing from the
end instead of raising. -/
theorem getEntryByCacheNum_zero_returns_entry :
    ((0 : Int) < 1 ∧ getEntryByCacheNum [entryA] 0 = Except.ok entryA) := by
  exact ⟨by decide, rfl⟩

/-- Claim C7 (amended): for a cache of length `L`, `getEntryByCacheNum n`
returns the entry at internal index `n - 1` when `1 ≤ n ≤ L`, silently
returns the entry at internal index `L + n - 1` when `1 - L ≤ n ≤ 0`
(Python negative indexing — not an error), and raises the no-such-position
`IndexError` exactly when `n > L` or `n ≤ -L`. -/
theorem getEntryByCacheNum_range (cache : List PickleMappingEntry) (n : Int) :
    (1 ≤ n → n ≤ (cache.length : Int) →
      ∃ e, cache.get? (n - 1).toNat = some e ∧
        getEntryByCacheNum cache n = Except.ok e) ∧
      (1 - (cache.length : Int) ≤ n → n ≤ 0 →
        ∃ e, cache.get? ((cache.length : Int) + n - 1).toNat = some e ∧
          getEntryByCacheNum cache n = Except.ok e) ∧
      ((cache.length : Int) < n ∨ n ≤ -(cache.length : Int) →
        getEntryByCacheNum cache n =
          Except.error (toString (n - 1) ++ " not a valid key")) := by
  refine ⟨?_, ?_, ?_⟩
  · intro h1 h2
    have hpi : pyIndex (n - 1) cache.length = n - 1 := by
      rw [pyIndex, if_neg (by omega)]
    cases hget : cache.get? (n - 1).toNat with
    | none =>
      exfalso
      rw [List.get?_eq_none] at hget
      omega
    | some e =>
      refine ⟨e, rfl, ?_⟩
      rw [getEntryByCacheNum, listGetItem, hpi, if_pos (by omega), hget]
  · intro h1 h2
    have hpi : pyIndex (n - 1) cache.length = (cache.length : Int) + n - 1 := by
      rw [pyIndex, if_pos (by omega)]
      omega
    have hlen : 1 ≤ (cache.length : Int) := by omega
    cases hget : cache.get? ((cache.length : Int) + n - 1).toNat with
    | none =>
      exfalso
      rw [List.get?_eq_none] at hget
      omega
    | some e =>
      refine ⟨e, rfl, ?_⟩
      rw [getEntryByCacheNum, listGetItem, hpi, if_pos (by omega), hget]
  · intro hout
    have hcond : ¬ (0 ≤ pyIndex (n - 1) cache.length ∧
        pyIndex (n - 1) cache.length < (cache.length : Int)) := by
      rw [pyIndex]
      by_cases hneg : n - 1 < 0
      · rw [if_pos hneg]
        omega
      · rw [if_neg hneg]
        omega
    rw [getEntryByCacheNum, listGetItem, if_neg hcond]

/-- Witness for amended claim C7: on the one-entry cache, `n = 1` returns
the entry and `n = 2` raises. -/
theorem getEntryByCacheNum_range_witness :
    (∃ e, [entryA].get? ((1 : Int) - 1).toNat = some e ∧
        getEntryByCacheNum [entryA] 1 = Except.ok e) ∧
      getEntryByCacheNum [entryA] 2 =
        Except.error (toString ((2 : Int) - 1) ++ " not a valid key") :=
  ⟨(getEntryByCacheNum_range [entryA] 1).1 (by decide) (by decide),
    (getEntryByCacheNum_range [entryA] 2).2.2 (Or.inl (by decide))⟩

/-! The term filter. -/

theorem leadsList_iff : ∀ n h : List Char, leadsList n h = true ↔ ∃ t, h = n ++ t := by
  intro n
  induction n with
  | nil =>
    intro h
    simp [leadsList]
  | cons a as ih =>
    intro h
    cases h with
    | nil =>
      simp [leadsList]
    | cons b bs =>
      rw [leadsList]
      simp only [Bool.and_eq_true, decide_eq_true_eq, ih bs]
      constructor
      · rintro ⟨rfl, t, rfl⟩
        exact ⟨t, rfl⟩
      · rintro ⟨t, ht⟩
        injection ht with h1 h2
        exact ⟨h1.symm, t, h2⟩

theorem containsSub_iff (n : List Char) :
    ∀ h : List Char, containsSub n h = true ↔ ∃ s t, h = s ++ n ++ t := by
  intro h
  induction h with
  | nil =>
    rw [containsSub]
    constructor
    · intro he
      refine ⟨[], [], ?_⟩
      rw [List.isEmpty_iff.mp he]
      rfl
    · rintro ⟨s, t, hst⟩
      rw [List.isEmpty_iff]
      have hs : s = [] := by
        cases s with
        | nil => rfl
        | cons x xs => cases hst
      subst hs
      have hn : n = [] := by
        cases n with
        | nil => rfl
        | cons x xs => cases hst
      exact hn
  | cons c rest ih =>
    rw [containsSub]
    simp only [Bool.or_eq_true, leadsList_iff, ih]
    constructor
    · rintro (⟨t, ht⟩ | ⟨s, t, hst⟩)
      · exact ⟨[], t, by rw [ht]; rfl⟩
      · exact ⟨c :: s, t, by rw [hst]; rfl⟩
    · rintro ⟨s, t, hst⟩
      cases s with
      | nil =>
        left
        exact ⟨t, by simpa using hst⟩
      | cons x xs =>
        right
        injection hst with h1 h2
        exact ⟨xs, t, h2⟩

/-- The PUID collaborator used in the concrete counterexample: every source
normalizes to "ABC". -/
def puidABC : String → String := fun _ => "ABC"

/-- Sample entry with a one-letter source and no other metadata. -/
def entryX : PickleMappingEntry := { source := "x" }

/-- The term filter exactly as claim C8 words its third disjunct: the term's
uppercase form must EQUAL the PUID of the source (the code instead tests
substring containment). -/
def hasTermClaimC8 (puid : String → String) (e : PickleMappingEntry)
    (term : String) : Bool :=
  strIn (pyLower term) (pyLower (termBlob e)) ||
    e.tags.contains term ||
    (pyUpper term == puid e.source)

/-- Counterexample to claim C8 as stated: with a PUID collaborator mapping
"x" to "ABC", the term "ab" passes the code's filter ("AB" is a substring of
"ABC") yet fails the claim's version ("AB" does not equal "ABC"); the other
two disjuncts do not fire. -/
theorem hasTerm_equality_counterexample :
    hasTerm puidABC entryX "ab" = true ∧
      hasTermClaimC8 puidABC entryX "ab" = false := by
  constructor <;> decide

/-- Claim C8 (amended): the term filter passes iff the lowered term occurs
as a contiguous substring of the lowered blob `source + " " + desc (+ " " +
author)`, or the term equals one of the tags verbatim, or the uppercased
term occurs as a contiguous substring of (not: equals) the PUID of the
source. -/
theorem hasTerm_characterization (puid : String → String)
    (e : PickleMappingEntry) (term : String) :
    hasTerm puid e term = true ↔
      ((∃ s t, (pyLower (termBlob e)).data = s ++ (pyLower term).data ++ t) ∨
        term ∈ e.tags ∨
        (∃ s t, (puid e.source).data = s ++ (pyUpper term).data ++ t)) := by
  rw [hasTerm, strIn, strIn]
  simp only [Bool.or_eq_true, containsSub_iff, List.contains]
  simp only [List.elem_eq_mem, decide_eq_true_eq, List.append_assoc]
  exact or_assoc

/-! The search scan: pure filter plus sort. -/

theorem searchMatches_i_irrelevant (puid : String → String)
    (evil : Option (List String)) (q : SearchQuery) (b : PickleMappingEntry)
    (x : Option Nat) :
    searchMatches puid evil q { b with i := x } = searchMatches puid evil q b := rfl

theorem keyLeB_i_irrelevant (st : List String) (a b : PickleMappingEntry)
    (x y : Option Nat) :
    keyLeB st { a with i := x } { b with i := y } = keyLeB st a b := rfl

theorem srcLeB_i_irrelevant (a b : PickleMappingEntry) (x y : Option Nat) :
    srcLeB { a with i := x } { b with i := y } = srcLeB a b := rfl

theorem runSearchCore_result_spec (st : List String) (puid : String → String)
    (evil : Option (List String)) (q : SearchQuery)
    (pool cache result cache2 : List PickleMappingEntry)
    (h : runSearchCore st puid evil q pool cache = (result, cache2)) :
    (result.map eraseI).Perm
        ((pool.filter (searchMatches puid evil q)).map eraseI) ∧
      (∀ e ∈ result, searchMatches puid evil q e = true) ∧
      (q.alph_sort = true → result.Pairwise (fun a b => srcLeB a b = true)) ∧
      (q.alph_sort = false → result.Pairwise (fun a b => keyLeB st a b = true)) := by
  unfold runSearchCore at h
  set pool0 := pool.filter (searchMatches puid evil q) with hpool0
  set sorted := (if q.alph_sort then pySort srcLeB pool0
    else pySort (keyLeB st) pool0) with hsorted
  have hperm : sorted.Perm pool0 := by
    rw [hsorted]
    by_cases halph : q.alph_sort
    · rw [if_pos halph]
      exact pySort_perm srcLeB pool0
    · rw [if_neg halph]
      exact pySort_perm (keyLeB st) pool0
  have hsortedPW :
      (q.alph_sort = true → sorted.Pairwise (fun a b => srcLeB a b = true)) ∧
        (q.alph_sort = false → sorted.Pairwise (fun a b => keyLeB st a b = true)) := by
    constructor
    · intro halph
      rw [hsorted, if_pos halph]
      exact pySort_pairwise srcLeB srcLeB_total srcLeB_trans pool0
    · intro halph
      rw [hsorted, if_neg (by rw [halph]; exact Bool.false_ne_true)]
      exact pySort_pairwise (keyLeB st) (keyLeB_total st) (keyLeB_trans st) pool0
  by_cases he : sorted.isEmpty
  · rw [if_pos he] at h
    injection h with h1 _
    rw [← hsorted] at h1
    have hsnil : sorted = [] := List.isEmpty_iff.mp he
    have hpnil : pool0 = [] := by
      have hx := hperm
      rw [hsnil] at hx
      exact List.perm_nil.mp hx.symm
    rw [← h1, hsnil, hpnil]
    refine ⟨List.Perm.refl _, ?_, ?_, ?_⟩
    · intro e hm
      cases hm
    · intro _; exact List.Pairwise.nil
    · intro _; exact List.Pairwise.nil
  · rw [if_neg he] at h
    injection h with h1 _
    rw [← hsorted] at h1
    have hmapr : result.map eraseI = sorted.map eraseI := by
      rw [← h1]
      exact map_eraseI_renumberFrom sorted 0
    refine ⟨?_, ?_, ?_, ?_⟩
    · rw [hmapr]
      exact hperm.map eraseI
    · intro e hm
      rw [← h1] at hm
      obtain ⟨b, hb, m, rfl⟩ := mem_renumberFrom e sorted 0 hm
      rw [searchMatches_i_irrelevant]
      have hbp : b ∈ pool0 := hperm.mem_iff.mp hb
      exact List.of_mem_filter hbp
    · intro halph
      rw [← h1]
      exact pairwise_renumberFrom _
        (fun a b x y hab => by rw [srcLeB_i_irrelevant]; exact hab)
        sorted 0 (hsortedPW.1 halph)
    · intro halph
      rw [← h1]
      exact pairwise_renumberFrom _
        (fun a b x y hab => by rw [keyLeB_i_irrelevant]; exact hab)
        sorted 0 (hsortedPW.2 halph)

/-- Claim C2: over the full-Index scope, a successful `runSearch` returns
exactly the entries of the scanned store passing every supplied filter
(up to the position restamping of the caching step), sorted by source when
alphabetical sorting is requested and by the derived ordering key otherwise.
Over the current-Cache scope the claim fails: scanning a non-empty Cache
via `cache.values()` indexes the backing list with an entry object and
raises `TypeError`, as the final conjunct evaluates on a concrete cache. -/
theorem runSearch_filter_sort_and_refine_crash :
    (∀ (st : List String) (puid : String → String) (evil : Option (List String))
        (index : Index) (cache : List PickleMappingEntry) (q : SearchQuery)
        (result cache2 : List PickleMappingEntry),
      q.refine = false →
      runSearch st puid evil index cache q = Except.ok (result, cache2) →
      ((result.map eraseI).Perm
          (((List.map Prod.snd index).filter (searchMatches puid evil q)).map eraseI) ∧
        (∀ e ∈ result, searchMatches puid evil q e = true) ∧
        (q.alph_sort = true → result.Pairwise (fun a b => srcLeB a b = true)) ∧
        (q.alph_sort = false → result.Pairwise (fun a b => keyLeB st a b = true)))) ∧
      runSearch [] puidABC none [] [entryA0] { refine := true } =
        Except.error "TypeError: list indices must be integers or slices, not PickleMappingEntry" := by
  constructor
  · intro st puid evil index cache q result cache2 hq h
    rw [runSearch, hq] at h
    rw [if_neg Bool.false_ne_true] at h
    have h2 : Except.ok (ε := String)
        (runSearchCore st puid evil q (List.map Prod.snd index) cache) =
          Except.ok (result, cache2) := h
    injection h2 with h3
    exact runSearchCore_result_spec st puid evil q (List.map Prod.snd index)
      cache result cache2 h3
  · rfl

/-- Witness for claim C2: the full-Index part applied at a concrete search —
one matching entry, returned renumbered, passing the filter. -/
theorem runSearch_filter_sort_witness :
    ({ : SearchQuery }).refine = false ∧
      runSearch [] (fun _ => "") none [("A", entryA)] [] {} =
        Except.ok ([{ entryA with i := some 0 }], [{ entryA with i := some 0 }]) ∧
      (([{ entryA with i := some 0 }].map eraseI).Perm
        (((List.map Prod.snd [("A", entryA)]).filter
          (searchMatches (fun _ => "") none {})).map eraseI)) :=
  ⟨rfl, rfl,
    (runSearch_filter_sort_and_refine_crash.1 [] (fun _ => "") none
      [("A", entryA)] [] {} [{ entryA with i := some 0 }]
      [{ entryA with i := some 0 }] rfl rfl).1⟩

/-! The rebuild pipeline and identifier collisions. -/

theorem dictHasKey_iff (d : Index) (k : String) :
    dictHasKey d k = true ↔ k ∈ List.map Prod.fst d := by
  simp [dictHasKey, List.contains]

theorem dictInsert_append (k : String) (v : PickleMappingEntry) :
    ∀ d : Index, k ∉ List.map Prod.fst d → dictInsert d k v = d ++ [(k, v)] := by
  intro d
  induction d with
  | nil => intro _; rfl
  | cons kv0 rest ih =>
    obtain ⟨k0, v0⟩ := kv0
    intro hk
    rw [List.map_cons, List.mem_cons] at hk
    push_neg at hk
    rw [dictInsert, if_neg (fun hh => hk.1 hh.symm), List.cons_append, ih hk.2]

theorem keys_pairMap (l : List Problem) :
    List.map Prod.fst (l.map (fun p => (p.source, p.entry))) =
      l.map (fun p => p.source) := by
  simp

theorem rebuildFold_clean :
    ∀ (docs : List Problem) (d : Index) (rng : List Nat) (r : Nat),
      (∀ p ∈ docs, p.source ∉ List.map Prod.fst d) →
      (docs.map (fun p => p.source)).Nodup →
      docs.foldl rebuildStep (d, rng, r) =
        (d ++ docs.map (fun p => (p.source, p.entry)), rng, r) := by
  intro docs
  induction docs with
  | nil =>
    intro d rng r _ _
    simp
  | cons p rest ih =>
    intro d rng r hdisj hnd
    rw [List.map_cons, List.nodup_cons] at hnd
    obtain ⟨hp, hndr⟩ := hnd
    rw [List.foldl_cons, rebuildStep,
      if_neg (fun hc =>
        hdisj p (List.mem_cons_self _ _) ((dictHasKey_iff d p.source).mp hc)),
      dictInsert_append p.source p.entry d (hdisj p (List.mem_cons_self _ _)),
      ih (d ++ [(p.source, p.entry)]) rng r ?_ hndr]
    · rw [List.map_cons, List.append_assoc, List.singleton_append]
    · intro p2 hp2
      rw [List.map_append, List.mem_append]
      push_neg
      constructor
      · exact hdisj p2 (List.mem_cons_of_mem _ hp2)
      · intro hx
        apply hp
        simp only [List.map_cons, List.map_nil, List.mem_singleton] at hx
        rw [← hx]
        exact List.mem_map.mpr ⟨p2, hp2, rfl⟩

/-- Claim C6 (amended): when the discovered documents contain exactly two
with the same identifier (decomposed as `as ++ q0 :: bs` with `q0.source`
occurring once in `as` and all other identifiers distinct), and the
generated placeholder happens to differ from every document identifier,
`rebuildIndex` keeps both colliding entries — the later one under the
placeholder, in the first duplicate's discovery position order — reports
exactly one collision, and drops no document. Without the placeholder
freshness proviso the claim fails (see the counterexample): the placeholder
is only randomized, never checked against real identifiers. -/
theorem rebuildIndex_single_collision (as bs : List Problem) (q0 : Problem)
    (rng : List Nat)
    (hnd : ((as ++ bs).map (fun p => p.source)).Nodup)
    (hdup : q0.source ∈ as.map (fun p => p.source))
    (hfake : fakeSourceName (rng.headD 0) ∉
      ((as ++ q0 :: bs).map (fun p => p.source))) :
    rebuildIndex (as ++ q0 :: bs) rng =
        (as.map (fun p => (p.source, p.entry)) ++
          (fakeSourceName (rng.headD 0),
            Problem.entry { q0 with source := fakeSourceName (rng.headD 0) }) ::
            bs.map (fun p => (p.source, p.entry)), 1) ∧
      (rebuildIndex (as ++ q0 :: bs) rng).1.length = (as ++ q0 :: bs).length ∧
      (∀ a ∈ as, (a.source, a.entry) ∈ (rebuildIndex (as ++ q0 :: bs) rng).1) := by
  rw [List.map_append, List.nodup_append] at hnd
  obtain ⟨hndAs, hndBs, hdisjAB⟩ := hnd
  rw [List.map_append, List.map_cons, List.mem_append, List.mem_cons] at hfake
  push_neg at hfake
  obtain ⟨hfakeAs, hfakeQ, hfakeBs⟩ := hfake
  have hdisjBs : ∀ p2 ∈ bs, p2.source ∉ List.map Prod.fst
      (as.map (fun p => (p.source, p.entry)) ++
        [(fakeSourceName (rng.headD 0),
          Problem.entry { q0 with source := fakeSourceName (rng.headD 0) })]) := by
    intro p2 hp2
    rw [List.map_append, List.mem_append, keys_pairMap]
    push_neg
    refine ⟨fun hx => hdisjAB hx (List.mem_map.mpr ⟨p2, hp2, rfl⟩), ?_⟩
    intro hx
    simp only [List.map_cons, List.map_nil, List.mem_singleton] at hx
    apply hfakeBs
    rw [← hx]
    exact List.mem_map.mpr ⟨p2, hp2, rfl⟩
  have hmain : rebuildIndex (as ++ q0 :: bs) rng =
      (as.map (fun p => (p.source, p.entry)) ++
        (fakeSourceName (rng.headD 0),
          Problem.entry { q0 with source := fakeSourceName (rng.headD 0) }) ::
          bs.map (fun p => (p.source, p.entry)), 1) := by
    rw [rebuildIndex, List.foldl_append,
      rebuildFold_clean as [] rng 0 (by intro p _ hx; cases hx) hndAs,
      List.nil_append, List.foldl_cons, rebuildStep,
      if_pos ((dictHasKey_iff _ q0.source).mpr (by rw [keys_pairMap]; exact hdup)),
      dictInsert_append _ _ _ (by rw [keys_pairMap]; exact hfakeAs),
      rebuildFold_clean bs _ rng.tail (0 + 1) hdisjBs hndBs,
      List.append_assoc, List.singleton_append]
  refine ⟨hmain, ?_, ?_⟩
  · rw [hmain]
    simp only [List.length_append, List.length_map, List.length_cons]
  · intro a ha
    rw [hmain]
    exact List.mem_append.mpr (Or.inl (List.mem_map.mpr ⟨a, ha, rfl⟩))

/-- First document of the duplicated witness pair. -/
def problemQ1 : Problem := { source := "Q", desc := "collision first" }

/-- Second document of the duplicated witness pair. -/
def problemQ2 : Problem := { source := "Q", desc := "collision second" }

/-- Witness for amended claim C6: rebuilding two documents that share the
identifier "Q", with a placeholder ("DUPLICATE 1000000") distinct from all
real identifiers, keeps both entries and reports exactly one collision. -/
theorem rebuildIndex_single_collision_witness :
    rebuildIndex ([problemQ1] ++ problemQ2 :: []) [0] =
      ([problemQ1].map (fun p => (p.source, p.entry)) ++
        (fakeSourceName (([0] : List Nat).headD 0),
          Problem.entry { problemQ2 with
            source := fakeSourceName (([0] : List Nat).headD 0) }) ::
          ([] : List Problem).map (fun p => (p.source, p.entry)), 1) :=
  (rebuildIndex_single_collision [problemQ1] [] problemQ2 [0]
    (by decide) (by decide) (by decide)).1

/-- Sample document whose real identifier collides with a possible
generated placeholder. -/
def problemD5 : Problem :=
  { source := "DUPLICATE 5000000", desc := "legit document" }

/-- First document of the duplicated pair. -/
def problemP1 : Problem := { source := "P", desc := "dup first" }

/-- Second document of the duplicated pair. -/
def problemP2 : Problem := { source := "P", desc := "dup second" }

/-- Counterexample to claim C6 as stated: among three documents of which
exactly two share the identifier "P", the randomized placeholder
("DUPLICATE 5000000", drawn from the randomness stream) coincides with the
third document's real identifier, so the rebuilt Index has only two entries
— `problemD5` is silently overwritten, i.e. dropped — even though exactly
one collision is reported. -/
theorem rebuildIndex_collision_counterexample :
    problemP1.source = problemP2.source ∧
      problemD5.source ≠ problemP1.source ∧
      fakeSourceName ((([4000000] : List Nat)).headD 0) = problemD5.source ∧
      (rebuildIndex [problemD5, problemP1, problemP2] [4000000]).2 = 1 ∧
      (rebuildIndex [problemD5, problemP1, problemP2] [4000000]).1.length = 2 ∧
      dictGet (rebuildIndex [problemD5, problemP1, problemP2] [4000000]).1
          "DUPLICATE 5000000" =
        some (Problem.entry { problemP2 with source := "DUPLICATE 5000000" }) ∧
      ¬ (∃ kv ∈ (rebuildIndex [problemD5, problemP1, problemP2] [4000000]).1,
          Prod.snd kv = problemD5.entry) := by
  refine ⟨?_, ?_, ?_, ?_, ?_, ?_, ?_⟩ <;> decide

end Von
